import Mathlib

/-!
Verification development for the document-generator core (`generate.py`):
the template variable extraction / substitution engine and filename
derivation.  Templates are modelled as ordered lists of styled text blocks
plus tabular regions; text is modelled as `List Char`.
-/

namespace DocGen

abbrev Text := List Char

/-- A paragraph-equivalent unit of styled text (python-docx paragraph):
an opaque style identifier plus raw text. -/
structure Block where
  style : String
  text : Text
  deriving DecidableEq, Repr

/-- A parsed template: ordered top-level paragraphs plus tables
(each table is rows of cells, each cell a list of paragraphs). -/
structure Template where
  paragraphs : List Block
  tables : List (List (List (List Block)))
  deriving DecidableEq, Repr

/-! ## Pattern matcher: the scan of `re.findall(r'\{([^{}]+)\}', text)`

The regex never backtracks usefully (`[^{}]+` stops exactly at the first
brace), so the scan is a left-to-right pass: outside a candidate token, a
`{` opens one; inside, non-brace characters accumulate, `}` closes a
non-empty accumulation as a match, and a fresh `{` restarts the candidate. -/

def scanTokens : Option Text → Text → List Text
  | _, [] => []
  | none, c :: rest =>
      if c = '{' then scanTokens (some []) rest else scanTokens none rest
  | some acc, c :: rest =>
      if c = '}' then
        if acc = [] then scanTokens none rest
        else acc.reverse :: scanTokens none rest
      else if c = '{' then scanTokens (some []) rest
      else scanTokens (some (c :: acc)) rest

def findTokens (t : Text) : List Text := scanTokens none t

/-- The literal token text of a variable name: `{` ++ v ++ `}`. -/
def tokStr (v : Text) : Text := '{' :: (v ++ ['}'])

def NoBraces (l : Text) : Prop := ∀ c ∈ l, c ≠ '{' ∧ c ≠ '}'

instance (l : Text) : Decidable (NoBraces l) := by
  unfold NoBraces; infer_instance

/-- A variable name: non-empty, without brace characters. -/
def ValidName (v : Text) : Prop := v ≠ [] ∧ NoBraces v

instance (v : Text) : Decidable (ValidName v) := by
  unfold ValidName; infer_instance

/-! ## Template indexer: `extract_variables_from_template` -/

/-- Position-index builder: walks the paragraphs with a running index `i`,
appending `i` to a variable's list once per match found in paragraph `i`
(mirrors `var_paragraphs[match].append(i)`). -/
def varParasAux (v : Text) : Nat → List Block → List Nat
  | _, [] => []
  | i, b :: bs =>
      ((findTokens b.text).filterMap fun n => if n = v then some i else none)
        ++ varParasAux v (i + 1) bs

def varParagraphs (doc : Template) (v : Text) : List Nat :=
  varParasAux v 0 doc.paragraphs

/-- Raw texts of all table-cell paragraphs, in document order. -/
def cellTexts (doc : Template) : List Text :=
  doc.tables.flatMap fun tbl =>
    tbl.flatMap fun r => r.flatMap fun cell => cell.map fun b => b.text

/-- The variable set: names found in top-level paragraphs and in table
cells (`variables` in the source; a set, modelled as a deduplicated list). -/
def templateVariables (doc : Template) : List Text :=
  (((doc.paragraphs.map fun b => b.text) ++ cellTexts doc).flatMap findTokens).dedup

def extract_variables_from_template (doc : Template) :
    List Text × (Text → List Nat) :=
  (templateVariables doc, varParagraphs doc)

/-! ## Literal-token substitution: `re.compile(r'\{'+re.escape(var)+r'\}').sub`

The compiled pattern matches exactly the literal token, so scanning is a
left-to-right non-overlapping literal replacement.  The recursion is
expressed with a fuel argument equal to the text length so that it is
structural (the fuel is an embedding artifact only). -/

def substTokenAux (v repl : Text) : Nat → Text → Text
  | _, [] => []
  | 0, t => t
  | fuel + 1, c :: rest =>
      if (tokStr v).isPrefixOf (c :: rest) then
        repl ++ substTokenAux v repl fuel (rest.drop (v.length + 1))
      else
        c :: substTokenAux v repl fuel rest

def substToken (v repl t : Text) : Text := substTokenAux v repl t.length t

/-- The segments of `t` between the leftmost non-overlapping occurrences of
the literal token `{v}` (used to state what substitution does). -/
def splitOnTokAux (v : Text) : Nat → Text → List Text
  | _, [] => [[]]
  | 0, t => [t]
  | fuel + 1, c :: rest =>
      if (tokStr v).isPrefixOf (c :: rest) then
        [] :: splitOnTokAux v fuel (rest.drop (v.length + 1))
      else
        (splitOnTokAux v fuel rest).modifyHead fun s => c :: s

def splitOnTok (v t : Text) : List Text := splitOnTokAux v t.length t

def joinWith (sep : Text) : List Text → Text
  | [] => []
  | [s] => s
  | s :: s' :: ss => s ++ sep ++ joinWith sep (s' :: ss)

/-! ## Python replacement-template semantics

`Pattern.sub(repl, text)` with a string `repl` does NOT insert `repl`
verbatim: backslash escapes in it are interpreted (`\\`, `\g<0>`, octal
escapes, `\a \b \f \n \r \t \v`; `\1`..`\99` are group references, invalid
for this group-less pattern; other ASCII-letter escapes are errors; other
escaped characters are kept with their backslash).  `none` models the
`re.error` exception.  `\w`-style classes do not occur here; `Char.isAlpha`
matches Python's ASCII-letter check for bad escapes. -/

def isOctDigitChar (c : Char) : Bool := '0' ≤ c && c ≤ '7'

def octVal (l : Text) : Nat := l.foldl (fun a c => a * 8 + (c.toNat - 48)) 0

def simpleEscape (c : Char) : Option Char :=
  if c = 'a' then some (Char.ofNat 7)
  else if c = 'b' then some (Char.ofNat 8)
  else if c = 'f' then some (Char.ofNat 12)
  else if c = 'n' then some (Char.ofNat 10)
  else if c = 'r' then some (Char.ofNat 13)
  else if c = 't' then some (Char.ofNat 9)
  else if c = 'v' then some (Char.ofNat 11)
  else none

def parseTmplAux (matched : Text) : Nat → Text → Option Text
  | _, [] => some []
  | 0, _ => none
  | fuel + 1, c :: rest =>
      if c = '\\' then
        match rest with
        | [] => none
        | d :: rest' =>
          if d = '\\' then (parseTmplAux matched fuel rest').map fun e => '\\' :: e
          else if d = 'g' then
            match rest' with
            | '<' :: rest'' =>
              let name := rest''.takeWhile fun x => x ≠ '>'
              let rem := rest''.dropWhile fun x => x ≠ '>'
              match rem with
              | '>' :: rest₃ =>
                if name ≠ [] ∧ name.all fun x => x = '0' then
                  (parseTmplAux matched fuel rest₃).map fun e => matched ++ e
                else none
              | _ => none
            | _ => none
          else if d = '0' then
            let ods := (rest'.takeWhile isOctDigitChar).take 2
            (parseTmplAux matched fuel (rest'.drop ods.length)).map fun e =>
              Char.ofNat (octVal ods) :: e
          else if d.isDigit then
            match rest' with
            | d₂ :: d₃ :: rest₃ =>
              if isOctDigitChar d && isOctDigitChar d₂ && isOctDigitChar d₃ then
                if octVal [d, d₂, d₃] ≤ 255 then
                  (parseTmplAux matched fuel rest₃).map fun e =>
                    Char.ofNat (octVal [d, d₂, d₃]) :: e
                else none
              else none
            | _ => none
          else
            match simpleEscape d with
            | some e => (parseTmplAux matched fuel rest').map fun x => e :: x
            | none =>
              if d.isAlpha then none
              else (parseTmplAux matched fuel rest').map fun x => '\\' :: d :: x
      else
        (parseTmplAux matched fuel rest).map fun e => c :: e

def parseTemplate (matched repl : Text) : Option Text :=
  parseTmplAux matched repl.length repl

/-- `var_patterns[var].sub(replacement_value, text)`: the replacement
string is parsed as a template (eagerly, hence possibly erroring), then
every literal `{v}` occurrence is replaced by the expansion. -/
def reSubVar (v repl t : Text) : Option Text :=
  (parseTemplate (tokStr v) repl).map fun e => substToken v e t

/-! ## Row renderer and batch driver: `generate_documents` -/

inductive RenderError where
  | keyError (col : Text)
  | reError
  deriving DecidableEq, Repr

abbrev Row := List (Text × Text)
abbrev ColumnMapping := List (Text × Text)

/-- `replacements = {var: str(row[column]) for var, column in column_mapping.items()}`:
looks up EVERY mapped column up front; an absent column raises `KeyError`. -/
def computeReplacements (row : Row) : ColumnMapping → Except RenderError (List (Text × Text))
  | [] => .ok []
  | p :: ps =>
      match row.lookup p.2 with
      | none => .error (.keyError p.2)
      | some val =>
        match computeReplacements row ps with
        | .error e => .error e
        | .ok rs => .ok ((p.1, val) :: rs)

/-- The per-paragraph loop `for var in variables_to_replace: text = pattern.sub(...)`. -/
def applySubs (repls : List (Text × Text)) : List Text → Text → Except RenderError Text
  | [], t => .ok t
  | v :: vs, t =>
      match repls.lookup v with
      | none => .error (.keyError v)
      | some r =>
        match reSubVar v r t with
        | none => .error .reError
        | some t' => applySubs repls vs t'

/-- One iteration of the paragraph loop: copy the style, substitute the
mapped variables whose position lists register this index. -/
def renderParagraph (cm : ColumnMapping) (vpm : Text → List Nat)
    (repls : List (Text × Text)) (i : Nat) (b : Block) : Except RenderError Block :=
  let vars := (cm.map Prod.fst).filter fun v => (vpm v).contains i
  match applySubs repls vars b.text with
  | .error e => .error e
  | .ok t => .ok { style := b.style, text := t }

def renderParas (cm : ColumnMapping) (vpm : Text → List Nat)
    (repls : List (Text × Text)) : Nat → List Block → Except RenderError (List Block)
  | _, [] => .ok []
  | i, b :: bs =>
      match renderParagraph cm vpm repls i b with
      | .error e => .error e
      | .ok b' =>
        match renderParas cm vpm repls (i + 1) bs with
        | .error e => .error e
        | .ok bs' => .ok (b' :: bs')

/-- Rendering one row: `doc = Document()` starts EMPTY (no tables), then
only the template's top-level paragraphs are processed and added. -/
def renderRow (tmpl : Template) (cm : ColumnMapping) (vpm : Text → List Nat)
    (row : Row) : Except RenderError Template :=
  match computeReplacements row cm with
  | .error e => .error e
  | .ok repls =>
    match renderParas cm vpm repls 0 tmpl.paragraphs with
    | .error e => .error e
    | .ok paras => .ok { paragraphs := paras, tables := [] }

/-! ## Filename derivation and persistence -/

/-- `str.replace(old, new)` for single characters. -/
def pyReplaceChar (old new : Char) (s : Text) : Text :=
  s.map fun c => if c = old then new else c

/-- ASCII model of the regex class `\w`. -/
def isWordChar (c : Char) : Bool := c.isAlphanum || c == '_'

def keepFilenameChar (c : Char) : Bool :=
  isWordChar c || c == '-' || c == '_' || c == '.'

/-- `filename.replace(" ", "_")` then `re.sub(r'[^\w\-_\.]', '', filename)`. -/
def derive_filename (s : Text) : Text :=
  (pyReplaceChar ' ' '_' s).filter keepFilenameChar

/-- `os.path.join` (posix) for a single component. -/
def joinPath (a b : Text) : Text :=
  if b.head? = some '/' then b
  else if a = [] ∨ a.getLast? = some '/' then a ++ b
  else a ++ '/' :: b

/-- The row loop of `generate_documents`.  The template and the position
index are threaded through each iteration as explicit state: the loop body
reads them and passes them on unchanged, as the source does.  The result
collects the persisted `(path, document)` writes in row order. -/
def generate_documents :
    List Row → Template × (Text → List Nat) → ColumnMapping → Text → Text →
      Except RenderError (List (Text × Template) × (Template × (Text → List Nat)))
  | [], st, _, _, _ => .ok ([], st)
  | row :: rest, st, cm, fcol, odir =>
      match renderRow st.1 cm st.2 row with
      | .error e => .error e
      | .ok doc =>
        match row.lookup fcol with
        | none => .error (.keyError fcol)
        | some val =>
          match generate_documents rest st cm fcol odir with
          | .error e => .error e
          | .ok (outs, st') =>
              .ok ((joinPath odir (derive_filename val ++ (".docx").data), doc) :: outs, st')

/-- Modelled from the spec: the Filename Deriver's contract restated as a
single per-character pass (space becomes underscore; characters in the
safe set are kept; everything else is removed). -/
def filenameCharSpec (c : Char) : Option Char :=
  if c = ' ' then some '_'
  else if keepFilenameChar c then some c
  else none

/-! ## Concrete instances used to exercise the development -/

def tmplScenario : Template :=
  { paragraphs := [{ style := "Normal", text := ("Dear {name},").data },
                   { style := "Normal", text := ("Your balance is {amount}.").data }],
    tables := [] }

def rowScenario : Row :=
  [(("name").data, ("Ana").data), (("amount").data, ("42").data)]

def cmScenarioB : ColumnMapping := [(("name").data, ("name").data)]

def tmplHiX : Template :=
  { paragraphs := [{ style := "Normal", text := ("Hi {x}").data }], tables := [] }

def cmXcol : ColumnMapping := [(("x").data, ("col").data)]

def rowBackslash : Row := [(("col").data, ("\\t").data)]

def rowVal : Row := [(("col").data, ("val").data)]

def tmplWithTable : Template :=
  { paragraphs := [{ style := "Normal", text := ("A").data }],
    tables := [[[[{ style := "Normal", text := ("{v} in cell").data }]]]] }

end DocGen

namespace DocGen

/-- The text that the scanner state stands for: scanning `t` in state
`some acc` is scanning `'{' ++ reverse acc ++ t`. -/
def scanCtx : Option Text → Text → Text
  | none, t => t
  | some acc, t => '{' :: (acc.reverse ++ t)

theorem tokStr_ne_nil (v : Text) : tokStr v ≠ [] := by simp [tokStr]

theorem close_mem_tokStr (v : Text) : '}' ∈ tokStr v := by simp [tokStr]

theorem noBraces_reverse {l : Text} (h : NoBraces l) : NoBraces l.reverse := by
  intro c hc; exact h c (List.mem_reverse.mp hc)

theorem eq_of_close_pre {v w x y : Text} (hv : NoBraces v) (hw : NoBraces w)
    (h : (v ++ '}' :: x) <+: (w ++ '}' :: y)) : v = w ∧ x <+: y := by
  induction w generalizing v with
  | nil =>
    cases v with
    | nil => simpa using h
    | cons c v' =>
      rw [List.nil_append, List.cons_append, List.cons_prefix_cons] at h
      exact absurd h.1 (hv c (by simp)).2
  | cons b w' ih =>
    cases v with
    | nil =>
      rw [List.nil_append, List.cons_append, List.cons_prefix_cons] at h
      exact absurd h.1.symm (hw b (by simp)).2
    | cons c v' =>
      rw [List.cons_append, List.cons_append, List.cons_prefix_cons] at h
      obtain ⟨rfl, h2⟩ := h
      have hrec := ih (fun a ha => hv a (List.mem_cons_of_mem _ ha))
        (fun a ha => hw a (List.mem_cons_of_mem _ ha)) h2
      exact ⟨by rw [hrec.1], hrec.2⟩

theorem not_close_pre_open {v w x y : Text} (hv : NoBraces v) (hw : NoBraces w) :
    ¬ (v ++ '}' :: x) <+: (w ++ '{' :: y) := by
  induction w generalizing v with
  | nil =>
    cases v with
    | nil => intro h; rw [List.nil_append, List.nil_append, List.cons_prefix_cons] at h; simp at h
    | cons c v' =>
      intro h
      rw [List.cons_append, List.nil_append, List.cons_prefix_cons] at h
      exact (hv c (by simp)).1 h.1
  | cons b w' ih =>
    cases v with
    | nil =>
      intro h
      rw [List.nil_append, List.cons_append, List.cons_prefix_cons] at h
      exact (hw b (by simp)).2 h.1.symm
    | cons c v' =>
      intro h
      rw [List.cons_append, List.cons_append, List.cons_prefix_cons] at h
      obtain ⟨rfl, h2⟩ := h
      exact ih (fun a ha => hv a (List.mem_cons_of_mem _ ha))
        (fun a ha => hw a (List.mem_cons_of_mem _ ha)) h2

theorem open_infix_drop {l w ys : Text} (hw : '{' ∉ w) (h : ('{' :: l) <:+: (w ++ ys)) :
    ('{' :: l) <:+: ys := by
  induction w with
  | nil => simpa using h
  | cons a w' ih =>
    rw [List.cons_append, List.infix_cons_iff] at h
    rcases h with h | h
    · rw [List.cons_prefix_cons] at h
      exact absurd (h.1.symm ▸ List.mem_cons_self a w') hw
    · exact ih (fun hm => hw (List.mem_cons_of_mem _ hm)) h

theorem infix_append_cases {x a b : Text} (h : x <:+: a ++ b) :
    x <:+: b ∨ ∃ a₁, a₁ ≠ [] ∧ a₁ <:+ a ∧ x <+: a₁ ++ b := by
  induction a with
  | nil => exact Or.inl (by simpa using h)
  | cons c a' ih =>
    rw [List.cons_append, List.infix_cons_iff] at h
    rcases h with h | h
    · exact Or.inr ⟨c :: a', by simp, List.suffix_refl _, by simpa using h⟩
    · rcases ih h with h' | ⟨a₁, h1, h2, h3⟩
      · exact Or.inl h'
      · exact Or.inr ⟨a₁, h1, h2.trans (List.suffix_cons c a'), h3⟩

theorem infix_cons_of {x t : Text} {c : Char} (h : x <:+: t) : x <:+: c :: t :=
  h.trans (List.suffix_cons c t).isInfix

theorem scanTokens_sound (v : Text) :
    ∀ (t : Text) (st : Option Text), (∀ acc, st = some acc → NoBraces acc) →
      v ∈ scanTokens st t → ValidName v ∧ tokStr v <:+: scanCtx st t := by
  intro t
  induction t with
  | nil => intro st _ h; cases st <;> simp [scanTokens] at h
  | cons c rest ih =>
    intro st hst h
    cases st with
    | none =>
      by_cases hc : c = '{'
      · subst hc
        simp only [scanTokens, if_pos rfl] at h
        have := ih (some []) (by intro acc hacc; cases hacc; intro x hx; simp at hx) h
        simpa [scanCtx] using this
      · simp only [scanTokens, if_neg hc] at h
        have := ih none (by intro acc hacc; cases hacc) h
        exact ⟨this.1, infix_cons_of (by simpa [scanCtx] using this.2)⟩
    | some acc =>
      have hacc : NoBraces acc := hst acc rfl
      by_cases hc : c = '}'
      · subst hc
        by_cases ha : acc = ([] : Text)
        · subst ha
          simp only [scanTokens, if_pos rfl] at h
          have := ih none (by intro acc hacc'; cases hacc') h
          refine ⟨this.1, ?_⟩
          have hsuf : rest <:+ scanCtx (some []) ('}' :: rest) := by
            simp [scanCtx]
            exact (List.suffix_cons '}' rest).trans (List.suffix_cons '{' _)
          exact (by simpa [scanCtx] using this.2 : tokStr v <:+: rest).trans hsuf.isInfix
        · simp only [scanTokens, if_pos rfl, if_neg ha] at h
          rcases List.mem_cons.mp h with h | h
          · subst h
            refine ⟨⟨by simpa using ha, noBraces_reverse hacc⟩, ?_⟩
            refine ⟨[], rest, ?_⟩
            simp [scanCtx, tokStr]
          · have := ih none (by intro acc hacc'; cases hacc') h
            refine ⟨this.1, ?_⟩
            have hsuf : rest <:+ scanCtx (some acc) ('}' :: rest) := by
              show rest <:+ '{' :: (acc.reverse ++ '}' :: rest)
              have : '{' :: (acc.reverse ++ '}' :: rest)
                  = ('{' :: (acc.reverse ++ ['}'])) ++ rest := by simp
              rw [this]
              exact List.suffix_append _ rest
            exact (by simpa [scanCtx] using this.2 : tokStr v <:+: rest).trans hsuf.isInfix
      · by_cases ho : c = '{'
        · subst ho
          simp only [scanTokens, if_neg hc, if_pos rfl] at h
          have := ih (some []) (by intro acc hacc'; cases hacc'; intro x hx; simp at hx) h
          refine ⟨this.1, ?_⟩
          have h2 : tokStr v <:+: '{' :: rest := by simpa [scanCtx] using this.2
          have hsuf : ('{' :: rest) <:+ scanCtx (some acc) ('{' :: rest) := by
            show ('{' :: rest) <:+ '{' :: (acc.reverse ++ '{' :: rest)
            have : '{' :: (acc.reverse ++ '{' :: rest) = ('{' :: acc.reverse) ++ ('{' :: rest) := by
              simp
            rw [this]
            exact List.suffix_append _ _
          exact h2.trans hsuf.isInfix
        · simp only [scanTokens, if_neg hc, if_neg ho] at h
          have hacc' : NoBraces (c :: acc) := by
            intro x hx
            rcases List.mem_cons.mp hx with rfl | hx
            · exact ⟨ho, hc⟩
            · exact hacc x hx
          have := ih (some (c :: acc)) (by intro a ha; cases ha; exact hacc') h
          refine ⟨this.1, ?_⟩
          have h2 := this.2
          simp only [scanCtx, List.reverse_cons, List.append_assoc, List.cons_append,
            List.nil_append] at h2 ⊢
          exact h2

theorem scanTokens_complete (v : Text) :
    ∀ (t : Text) (st : Option Text), (∀ acc, st = some acc → NoBraces acc) →
      ValidName v → tokStr v <:+: scanCtx st t → v ∈ scanTokens st t := by
  intro t
  induction t with
  | nil =>
    intro st hst hv hinf
    exfalso
    cases st with
    | none =>
      rw [scanCtx, List.infix_nil] at hinf
      exact tokStr_ne_nil v hinf
    | some acc =>
      have hmem : '}' ∈ scanCtx (some acc) [] := hinf.subset (close_mem_tokStr v)
      have hacc := hst acc rfl
      rw [scanCtx, List.append_nil] at hmem
      rcases List.mem_cons.mp hmem with h1 | h1
      · simp at h1
      · exact (noBraces_reverse hacc '}' h1).2 rfl
  | cons c rest ih =>
    intro st hst hv hinf
    cases st with
    | none =>
      by_cases hc : c = '{'
      · subst hc
        simp only [scanTokens, if_pos rfl]
        exact ih (some []) (by intro a ha; cases ha; intro x hx; simp at hx) hv
          (by simpa [scanCtx] using hinf)
      · simp only [scanTokens, if_neg hc]
        rw [scanCtx] at hinf
        rcases List.infix_cons_iff.mp hinf with h | h
        · rw [tokStr, List.cons_prefix_cons] at h
          exact absurd h.1.symm hc
        · exact ih none (by intro a ha; cases ha) hv h
    | some acc =>
      have hacc : NoBraces acc := hst acc rfl
      by_cases hc : c = '}'
      · subst hc
        by_cases ha : acc = ([] : Text)
        · subst ha
          simp only [scanTokens, if_pos rfl]
          apply ih none (by intro a ha'; cases ha') hv
          rw [scanCtx] at hinf
          simp only [List.reverse_nil, List.nil_append] at hinf
          rcases List.infix_cons_iff.mp hinf with h | h
          · rw [tokStr, List.cons_prefix_cons] at h
            obtain ⟨-, h2⟩ := h
            rcases hv with ⟨hne, hnb⟩
            cases v with
            | nil => exact absurd rfl hne
            | cons e v' =>
              rw [List.cons_append, List.cons_prefix_cons] at h2
              exact absurd h2.1 (hnb e (by simp)).2
          · rcases List.infix_cons_iff.mp h with h' | h'
            · rw [tokStr, List.cons_prefix_cons] at h'
              simp at h'
            · exact h'
        · simp only [scanTokens, if_pos rfl, if_neg ha]
          rw [scanCtx] at hinf
          rcases List.infix_cons_iff.mp hinf with h | h
          · rw [tokStr, List.cons_prefix_cons] at h
            obtain ⟨-, h2⟩ := h
            have h3 : (v ++ '}' :: ([] : Text)) <+: (acc.reverse ++ '}' :: rest) := by
              simpa using h2
            have := eq_of_close_pre hv.2 (noBraces_reverse hacc) h3
            rw [this.1]
            exact List.mem_cons_self _ _
          · have h2 : tokStr v <:+: ((acc.reverse ++ ['}']) ++ rest) := by
              simpa [List.append_assoc] using h
            have hnotin : '{' ∉ (acc.reverse ++ ['}'] : Text) := by
              intro hm
              rcases List.mem_append.mp hm with hm | hm
              · exact (noBraces_reverse hacc '{' hm).1 rfl
              · simp at hm
            have h3 : tokStr v <:+: rest := open_infix_drop hnotin (by rw [tokStr] at h2; exact h2)
            exact List.mem_cons_of_mem _ (ih none (by intro a ha'; cases ha') hv h3)
      · by_cases ho : c = '{'
        · subst ho
          simp only [scanTokens, if_neg hc, if_pos rfl]
          apply ih (some []) (by intro a ha'; cases ha'; intro x hx; simp at hx) hv
          rw [scanCtx] at hinf
          show tokStr v <:+: '{' :: (([] : Text).reverse ++ rest)
          simp only [List.reverse_nil, List.nil_append]
          rcases List.infix_cons_iff.mp hinf with h | h
          · rw [tokStr, List.cons_prefix_cons] at h
            obtain ⟨-, h2⟩ := h
            have h3 : (v ++ '}' :: ([] : Text)) <+: (acc.reverse ++ '{' :: rest) := by
              simpa using h2
            exact absurd h3 (not_close_pre_open hv.2 (noBraces_reverse hacc))
          · exact open_infix_drop (fun hm => (noBraces_reverse hacc '{' hm).1 rfl)
              (by rw [tokStr] at h; exact h)
        · simp only [scanTokens, if_neg hc, if_neg ho]
          have hacc' : NoBraces (c :: acc) := by
            intro x hx
            rcases List.mem_cons.mp hx with rfl | hx
            · exact ⟨ho, hc⟩
            · exact hacc x hx
          apply ih (some (c :: acc)) (by intro a ha'; cases ha'; exact hacc') hv
          rw [scanCtx] at hinf ⊢
          simp only [List.reverse_cons, List.append_assoc, List.cons_append, List.nil_append]
          exact hinf

theorem findTokens_mem_iff {v t : Text} :
    v ∈ findTokens t ↔ ValidName v ∧ tokStr v <:+: t := by
  constructor
  · intro h
    simpa [scanCtx] using scanTokens_sound v t none (by intro a ha; cases ha) h
  · rintro ⟨hv, hinf⟩
    exact scanTokens_complete v t none (by intro a ha; cases ha) hv (by simpa [scanCtx] using hinf)

theorem findTokens_valid {v t : Text} (h : v ∈ findTokens t) : ValidName v :=
  (findTokens_mem_iff.mp h).1

end DocGen

namespace DocGen

theorem tokStr_length (v : Text) : (tokStr v).length = v.length + 2 := by
  simp [tokStr]

theorem tok_pre_decomp {v : Text} {c : Char} {rest : Text} (h : tokStr v <+: c :: rest) :
    c = '{' ∧ rest = (v ++ ['}']) ++ rest.drop (v.length + 1) := by
  obtain ⟨t2, ht⟩ := h
  rw [tokStr, List.cons_append] at ht
  injection ht with h1 h2
  refine ⟨h1.symm, ?_⟩
  conv_lhs => rw [← h2]
  have hd : ((v ++ ['}']) ++ t2).drop (v.length + 1) = t2 :=
    List.drop_left' (by simp)
  rw [← h2, hd]

theorem substTokenAux_fuel (v r : Text) :
    ∀ (f₁ : Nat) (t : Text) (f₂ : Nat), t.length ≤ f₁ → t.length ≤ f₂ →
      substTokenAux v r f₁ t = substTokenAux v r f₂ t := by
  intro f₁
  induction f₁ with
  | zero =>
    intro t f₂ h1 _
    have ht : t = [] := List.eq_nil_of_length_eq_zero (Nat.le_zero.mp h1)
    subst ht
    cases f₂ <;> simp [substTokenAux]
  | succ m ih =>
    intro t f₂ h1 h2
    cases t with
    | nil => cases f₂ <;> simp [substTokenAux]
    | cons c rest =>
      cases f₂ with
      | zero => simp at h2
      | succ k =>
        simp only [List.length_cons] at h1 h2
        simp only [substTokenAux]
        by_cases hp : (tokStr v).isPrefixOf (c :: rest)
        · rw [if_pos hp, if_pos hp]
          congr 1
          exact ih (rest.drop (v.length + 1)) k
            (by simp only [List.length_drop]; omega)
            (by simp only [List.length_drop]; omega)
        · rw [if_neg hp, if_neg hp]
          congr 1
          exact ih rest k (by omega) (by omega)

theorem substToken_nil (v r : Text) : substToken v r [] = [] := rfl

theorem substToken_cons_pos {v : Text} (r : Text) {c : Char} {rest : Text}
    (h : tokStr v <+: c :: rest) :
    substToken v r (c :: rest) = r ++ substToken v r (rest.drop (v.length + 1)) := by
  have hb : (tokStr v).isPrefixOf (c :: rest) = true := List.isPrefixOf_iff_prefix.mpr h
  show substTokenAux v r ((c :: rest).length) (c :: rest) = _
  simp only [List.length_cons, substTokenAux, hb, if_true]
  congr 1
  exact substTokenAux_fuel v r rest.length (rest.drop (v.length + 1)) _
    (by simp only [List.length_drop]; omega) (le_refl _)

theorem substToken_cons_neg {v : Text} (r : Text) {c : Char} {rest : Text}
    (h : ¬ tokStr v <+: c :: rest) :
    substToken v r (c :: rest) = c :: substToken v r rest := by
  have hb : ¬ (tokStr v).isPrefixOf (c :: rest) = true := fun hx =>
    h (List.isPrefixOf_iff_prefix.mp hx)
  show substTokenAux v r ((c :: rest).length) (c :: rest) = _
  simp only [List.length_cons, substTokenAux, if_neg hb]
  rfl

theorem splitOnTokAux_ne_nil (v : Text) :
    ∀ (f : Nat) (t : Text), splitOnTokAux v f t ≠ [] := by
  intro f
  induction f with
  | zero => intro t; cases t <;> simp [splitOnTokAux]
  | succ m ih =>
    intro t
    cases t with
    | nil => simp [splitOnTokAux]
    | cons c rest =>
      simp only [splitOnTokAux]
      by_cases hp : (tokStr v).isPrefixOf (c :: rest)
      · rw [if_pos hp]; simp
      · rw [if_neg hp]
        obtain ⟨s, ss, hss⟩ := List.exists_cons_of_ne_nil (ih rest)
        rw [hss]
        simp

theorem splitOnTok_ne_nil (v t : Text) : splitOnTok v t ≠ [] :=
  splitOnTokAux_ne_nil v t.length t

theorem splitOnTokAux_fuel (v : Text) :
    ∀ (f₁ : Nat) (t : Text) (f₂ : Nat), t.length ≤ f₁ → t.length ≤ f₂ →
      splitOnTokAux v f₁ t = splitOnTokAux v f₂ t := by
  intro f₁
  induction f₁ with
  | zero =>
    intro t f₂ h1 _
    have ht : t = [] := List.eq_nil_of_length_eq_zero (Nat.le_zero.mp h1)
    subst ht
    cases f₂ <;> simp [splitOnTokAux]
  | succ m ih =>
    intro t f₂ h1 h2
    cases t with
    | nil => cases f₂ <;> simp [splitOnTokAux]
    | cons c rest =>
      cases f₂ with
      | zero => simp at h2
      | succ k =>
        simp only [List.length_cons] at h1 h2
        simp only [splitOnTokAux]
        by_cases hp : (tokStr v).isPrefixOf (c :: rest)
        · rw [if_pos hp, if_pos hp]
          congr 1
          exact ih (rest.drop (v.length + 1)) k
            (by simp only [List.length_drop]; omega)
            (by simp only [List.length_drop]; omega)
        · rw [if_neg hp, if_neg hp]
          congr 1
          exact ih rest k (by omega) (by omega)

theorem splitOnTok_nil (v : Text) : splitOnTok v [] = [[]] := rfl

theorem splitOnTok_cons_pos {v : Text} {c : Char} {rest : Text}
    (h : tokStr v <+: c :: rest) :
    splitOnTok v (c :: rest) = [] :: splitOnTok v (rest.drop (v.length + 1)) := by
  have hb : (tokStr v).isPrefixOf (c :: rest) = true := List.isPrefixOf_iff_prefix.mpr h
  show splitOnTokAux v ((c :: rest).length) (c :: rest) = _
  simp only [List.length_cons, splitOnTokAux, hb, if_true]
  congr 1
  exact splitOnTokAux_fuel v rest.length (rest.drop (v.length + 1)) _
    (by simp only [List.length_drop]; omega) (le_refl _)

theorem splitOnTok_cons_neg {v : Text} {c : Char} {rest : Text}
    (h : ¬ tokStr v <+: c :: rest) :
    splitOnTok v (c :: rest) = (splitOnTok v rest).modifyHead fun s => c :: s := by
  have hb : ¬ (tokStr v).isPrefixOf (c :: rest) = true := fun hx =>
    h (List.isPrefixOf_iff_prefix.mp hx)
  show splitOnTokAux v ((c :: rest).length) (c :: rest) = _
  simp only [List.length_cons, splitOnTokAux, if_neg hb]
  rfl

theorem substToken_eq_joinWith (v r : Text) :
    ∀ (t : Text), substToken v r t = joinWith r (splitOnTok v t) := by
  suffices h : ∀ (n : Nat) (t : Text), t.length ≤ n →
      substToken v r t = joinWith r (splitOnTok v t) by
    intro t; exact h t.length t (le_refl _)
  intro n
  induction n with
  | zero =>
    intro t ht
    have : t = [] := List.eq_nil_of_length_eq_zero (Nat.le_zero.mp ht)
    subst this
    simp [substToken_nil, splitOnTok_nil, joinWith]
  | succ m ih =>
    intro t ht
    cases t with
    | nil => simp [substToken_nil, splitOnTok_nil, joinWith]
    | cons c rest =>
      simp only [List.length_cons] at ht
      by_cases hp : tokStr v <+: c :: rest
      · rw [substToken_cons_pos r hp, splitOnTok_cons_pos hp]
        obtain ⟨s, ss, hss⟩ :=
          List.exists_cons_of_ne_nil (splitOnTok_ne_nil v (rest.drop (v.length + 1)))
        rw [hss, joinWith, ← hss,
          ← ih (rest.drop (v.length + 1)) (by simp only [List.length_drop]; omega)]
        simp
      · rw [substToken_cons_neg r hp, splitOnTok_cons_neg hp]
        obtain ⟨s, ss, hss⟩ := List.exists_cons_of_ne_nil (splitOnTok_ne_nil v rest)
        have ihr := ih rest (by omega)
        rw [hss] at ihr
        rw [hss, List.modifyHead_cons]
        cases ss with
        | nil => rw [joinWith] at ihr ⊢; rw [ihr]
        | cons s2 ss2 =>
          rw [joinWith] at ihr ⊢
          rw [ihr]
          simp

theorem splitOnTok_reconstruct (v : Text) :
    ∀ (t : Text), joinWith (tokStr v) (splitOnTok v t) = t := by
  suffices h : ∀ (n : Nat) (t : Text), t.length ≤ n →
      joinWith (tokStr v) (splitOnTok v t) = t by
    intro t; exact h t.length t (le_refl _)
  intro n
  induction n with
  | zero =>
    intro t ht
    have : t = [] := List.eq_nil_of_length_eq_zero (Nat.le_zero.mp ht)
    subst this
    simp [splitOnTok_nil, joinWith]
  | succ m ih =>
    intro t ht
    cases t with
    | nil => simp [splitOnTok_nil, joinWith]
    | cons c rest =>
      simp only [List.length_cons] at ht
      by_cases hp : tokStr v <+: c :: rest
      · rw [splitOnTok_cons_pos hp]
        obtain ⟨s, ss, hss⟩ :=
          List.exists_cons_of_ne_nil (splitOnTok_ne_nil v (rest.drop (v.length + 1)))
        rw [hss, joinWith, ← hss,
          ih (rest.drop (v.length + 1)) (by simp only [List.length_drop]; omega)]
        obtain ⟨hc, hrest⟩ := tok_pre_decomp hp
        subst hc
        conv_rhs => rw [hrest]
        simp [tokStr]
      · rw [splitOnTok_cons_neg hp]
        obtain ⟨s, ss, hss⟩ := List.exists_cons_of_ne_nil (splitOnTok_ne_nil v rest)
        have ihr := ih rest (by omega)
        rw [hss] at ihr
        rw [hss, List.modifyHead_cons]
        cases ss with
        | nil => rw [joinWith] at ihr ⊢; rw [ihr]
        | cons s2 ss2 =>
          rw [joinWith] at ihr ⊢
          conv_rhs => rw [← ihr]
          simp

theorem splitOnTok_head_pre (v : Text) :
    ∀ (t s : Text) (ss : List Text), splitOnTok v t = s :: ss → s <+: t := by
  suffices h : ∀ (n : Nat) (t : Text), t.length ≤ n → ∀ (s : Text) (ss : List Text),
      splitOnTok v t = s :: ss → s <+: t by
    intro t; exact h t.length t (le_refl _)
  intro n
  induction n with
  | zero =>
    intro t ht s ss hs
    have : t = [] := List.eq_nil_of_length_eq_zero (Nat.le_zero.mp ht)
    subst this
    rw [splitOnTok_nil] at hs
    injection hs with h1 _
    subst h1
    exact List.nil_prefix
  | succ m ih =>
    intro t ht s ss hs
    cases t with
    | nil =>
      rw [splitOnTok_nil] at hs
      injection hs with h1 _
      subst h1
      exact List.nil_prefix
    | cons c rest =>
      simp only [List.length_cons] at ht
      by_cases hp : tokStr v <+: c :: rest
      · rw [splitOnTok_cons_pos hp] at hs
        injection hs with h1 _
        subst h1
        exact List.nil_prefix
      · rw [splitOnTok_cons_neg hp] at hs
        obtain ⟨s', ss', hss⟩ := List.exists_cons_of_ne_nil (splitOnTok_ne_nil v rest)
        rw [hss, List.modifyHead_cons] at hs
        injection hs with h1 _
        subst h1
        rw [List.cons_prefix_cons]
        exact ⟨rfl, ih rest (by omega) s' ss' hss⟩

theorem splitOnTok_no_token (v : Text) :
    ∀ (t s : Text), s ∈ splitOnTok v t → ¬ tokStr v <:+: s := by
  suffices h : ∀ (n : Nat) (t : Text), t.length ≤ n → ∀ (s : Text),
      s ∈ splitOnTok v t → ¬ tokStr v <:+: s by
    intro t; exact h t.length t (le_refl _)
  intro n
  induction n with
  | zero =>
    intro t ht s hs
    have : t = [] := List.eq_nil_of_length_eq_zero (Nat.le_zero.mp ht)
    subst this
    rw [splitOnTok_nil] at hs
    simp at hs
    subst hs
    intro hinf
    exact tokStr_ne_nil v (List.infix_nil.mp hinf)
  | succ m ih =>
    intro t ht s hs
    cases t with
    | nil =>
      rw [splitOnTok_nil] at hs
      simp at hs
      subst hs
      intro hinf
      exact tokStr_ne_nil v (List.infix_nil.mp hinf)
    | cons c rest =>
      simp only [List.length_cons] at ht
      by_cases hp : tokStr v <+: c :: rest
      · rw [splitOnTok_cons_pos hp] at hs
        rcases List.mem_cons.mp hs with rfl | hs
        · intro hinf
          exact tokStr_ne_nil v (List.infix_nil.mp hinf)
        · exact ih (rest.drop (v.length + 1)) (by simp only [List.length_drop]; omega) s hs
      · rw [splitOnTok_cons_neg hp] at hs
        obtain ⟨s', ss', hss⟩ := List.exists_cons_of_ne_nil (splitOnTok_ne_nil v rest)
        rw [hss, List.modifyHead_cons] at hs
        rcases List.mem_cons.mp hs with rfl | hs
        · intro hinf
          rcases List.infix_cons_iff.mp hinf with h | h
          · have hpre : s' <+: rest := splitOnTok_head_pre v rest s' ss' hss
            obtain ⟨t2, ht2⟩ := hpre
            apply hp
            have : tokStr v <+: c :: (s' ++ t2) :=
              h.trans (by rw [← List.cons_append]; exact List.prefix_append (c :: s') t2)
            rw [ht2] at this
            exact this
          · exact ih rest (by omega) s' (hss ▸ List.mem_cons_self s' ss') h
        · exact ih rest (by omega) s (hss ▸ List.mem_cons_of_mem s' hs)

end DocGen

namespace DocGen

theorem subst_clean_passthrough (u r : Text) :
    ∀ (s rest₂ : Text), NoBraces s →
      substToken u r (s ++ '}' :: rest₂) = s ++ '}' :: substToken u r rest₂ := by
  intro s
  induction s with
  | nil =>
    intro rest₂ _
    rw [List.nil_append, List.nil_append,
      substToken_cons_neg r (fun hx => absurd (tok_pre_decomp hx).1 (by decide))]
  | cons a s' ih =>
    intro rest₂ hnb
    have ha : a ≠ '{' := (hnb a (List.mem_cons_self a s')).1
    rw [List.cons_append,
      substToken_cons_neg r (fun hx => ha (tok_pre_decomp hx).1),
      ih rest₂ (fun x hx => hnb x (List.mem_cons_of_mem a hx)), List.cons_append]

theorem subst_keeps_other_token {u w : Text} (r : Text) (hu : NoBraces u)
    (hw : NoBraces w) (hne : u ≠ w) :
    ∀ (t : Text), tokStr w <:+: t → tokStr w <:+: substToken u r t := by
  suffices h : ∀ (n : Nat) (t : Text), t.length ≤ n → tokStr w <:+: t →
      tokStr w <:+: substToken u r t by
    intro t; exact h t.length t (le_refl _)
  intro n
  induction n with
  | zero =>
    intro t ht hinf
    have : t = [] := List.eq_nil_of_length_eq_zero (Nat.le_zero.mp ht)
    subst this
    exact absurd (List.infix_nil.mp hinf) (tokStr_ne_nil w)
  | succ m ih =>
    intro t ht hinf
    cases t with
    | nil => exact absurd (List.infix_nil.mp hinf) (tokStr_ne_nil w)
    | cons c rest =>
      simp only [List.length_cons] at ht
      by_cases hp : tokStr u <+: c :: rest
      · rw [substToken_cons_pos r hp]
        obtain ⟨hc, hrest⟩ := tok_pre_decomp hp
        subst hc
        have hlen : (rest.drop (u.length + 1)).length ≤ m := by
          simp only [List.length_drop]; omega
        generalize hX : rest.drop (u.length + 1) = X at hrest hlen ⊢
        have hdecomp : ('{' :: rest : Text) = tokStr u ++ X := by
          rw [hrest, tokStr]
          simp
        rw [hdecomp] at hinf
        rcases infix_append_cases hinf with h | ⟨a₁, h1, h2, h3⟩
        · exact (ih X hlen h).trans (List.suffix_append r _).isInfix
        · exfalso
          obtain ⟨e, a₁', rfl⟩ := List.exists_cons_of_ne_nil h1
          have he : e = '{' := by
            rw [List.cons_append, tokStr, List.cons_prefix_cons] at h3
            exact h3.1.symm
          subst he
          rw [tokStr] at h2
          rcases List.suffix_cons_iff.mp h2 with hq | hq
          · have ha' : a₁' = u ++ ['}'] := by
              injection hq with _ h'
            subst ha'
            rw [tokStr, List.cons_append, List.cons_prefix_cons] at h3
            have h4 : (w ++ '}' :: ([] : Text)) <+: (u ++ '}' :: X) := by
              simpa [List.append_assoc] using h3.2
            exact hne ((eq_of_close_pre hw hu h4).1).symm
          · have hm : '{' ∈ (u ++ ['}'] : Text) := by
              have := hq.sublist.subset (List.mem_cons_self '{' a₁')
              simpa [tokStr] using this
            rcases List.mem_append.mp hm with hm' | hm'
            · exact (hu '{' hm').1 rfl
            · simp at hm'
      · rw [substToken_cons_neg r hp]
        rcases List.infix_cons_iff.mp hinf with h | h
        · obtain ⟨hc, hrest⟩ := tok_pre_decomp h
          subst hc
          generalize hX : rest.drop (w.length + 1) = X at hrest
          have hrest' : rest = w ++ '}' :: X := by simpa using hrest
          rw [hrest', subst_clean_passthrough u r w X hw]
          apply List.IsPrefix.isInfix
          refine ⟨substToken u r X, ?_⟩
          rw [tokStr]
          simp
        · exact infix_cons_of (ih rest (by omega) h)

theorem parseTmplAux_no_backslash (m : Text) :
    ∀ (f : Nat) (r : Text), r.length ≤ f → '\\' ∉ r → parseTmplAux m f r = some r := by
  intro f
  induction f with
  | zero =>
    intro r h1 _
    have : r = [] := List.eq_nil_of_length_eq_zero (Nat.le_zero.mp h1)
    subst this
    rfl
  | succ k ih =>
    intro r h1 h2
    cases r with
    | nil => rfl
    | cons c rest =>
      have hc : c ≠ '\\' := fun h => h2 (h ▸ List.mem_cons_self c rest)
      simp only [List.length_cons] at h1
      simp only [parseTmplAux, if_neg hc]
      rw [ih rest (by omega) (fun hm => h2 (List.mem_cons_of_mem c hm))]
      rfl

theorem parseTemplate_no_backslash {m r : Text} (h : '\\' ∉ r) :
    parseTemplate m r = some r :=
  parseTmplAux_no_backslash m r.length r (le_refl _) h

theorem reSubVar_no_backslash {v r : Text} (h : '\\' ∉ r) (t : Text) :
    reSubVar v r t = some (substToken v r t) := by
  rw [reSubVar, parseTemplate_no_backslash h]
  rfl

theorem varParasAux_mem (v : Text) :
    ∀ (bs : List Block) (k i : Nat),
      i ∈ varParasAux v k bs ↔
        ∃ j b, bs[j]? = some b ∧ i = k + j ∧ v ∈ findTokens b.text := by
  intro bs
  induction bs with
  | nil => intro k i; simp [varParasAux]
  | cons b bs ih =>
    intro k i
    rw [varParasAux]
    constructor
    · intro h
      rcases List.mem_append.mp h with h | h
      · rcases List.mem_filterMap.mp h with ⟨n, hn, hni⟩
        by_cases hnv : n = v
        · subst hnv
          rw [if_pos rfl] at hni
          injection hni with hki
          exact ⟨0, b, by simp, by omega, hn⟩
        · rw [if_neg hnv] at hni
          exact absurd hni (by simp)
      · rcases (ih (k + 1) i).mp h with ⟨j, b', hj, hi, hv'⟩
        exact ⟨j + 1, b', by simpa using hj, by omega, hv'⟩
    · rintro ⟨j, b', hj, hi, hv'⟩
      cases j with
      | zero =>
        simp only [List.getElem?_cons_zero] at hj
        injection hj with hb
        subst hb
        refine List.mem_append.mpr (Or.inl (List.mem_filterMap.mpr ⟨v, hv', ?_⟩))
        rw [if_pos rfl]
        congr 1
        omega
      | succ j' =>
        refine List.mem_append.mpr (Or.inr ((ih (k + 1) i).mpr ⟨j', b', ?_, by omega, hv'⟩))
        simpa using hj

theorem varParagraphs_mem (doc : Template) (v : Text) (i : Nat) :
    i ∈ varParagraphs doc v ↔
      ∃ b, doc.paragraphs[i]? = some b ∧ v ∈ findTokens b.text := by
  rw [varParagraphs, varParasAux_mem]
  constructor
  · rintro ⟨j, b, hj, hi, hv'⟩
    have : j = i := by omega
    subst this
    exact ⟨b, hj, hv'⟩
  · rintro ⟨b, hb, hv'⟩
    exact ⟨i, b, hb, by omega, hv'⟩

theorem varParagraphs_valid {doc : Template} {v : Text} {i : Nat}
    (h : i ∈ varParagraphs doc v) : ValidName v := by
  obtain ⟨b, -, hv'⟩ := (varParagraphs_mem doc v i).mp h
  exact findTokens_valid hv'

end DocGen

namespace DocGen

theorem contains_iff_mem {l : List Nat} {i : Nat} : l.contains i = true ↔ i ∈ l := by
  simp [List.contains, List.elem_iff]

theorem computeReplacements_absent (row : Row) :
    ∀ (cm : ColumnMapping), (∃ p ∈ cm, row.lookup p.2 = none) →
      ∃ c, computeReplacements row cm = .error (.keyError c) ∧ row.lookup c = none := by
  intro cm
  induction cm with
  | nil => rintro ⟨p, hp, -⟩; simp at hp
  | cons q qs ih =>
    rintro ⟨p, hp, hnone⟩
    by_cases hq : row.lookup q.2 = none
    · exact ⟨q.2, by rw [computeReplacements, hq], hq⟩
    · rcases List.mem_cons.mp hp with rfl | hp'
      · exact absurd hnone hq
      · obtain ⟨c, hc, hcn⟩ := ih ⟨p, hp', hnone⟩
        refine ⟨c, ?_, hcn⟩
        obtain ⟨val, hval⟩ := Option.ne_none_iff_exists'.mp hq
        rw [computeReplacements, hval, hc]

theorem renderRow_absent_column (tmpl : Template) (cm : ColumnMapping)
    (vpm : Text → List Nat) (row : Row)
    (h : ∃ p ∈ cm, row.lookup p.2 = none) :
    ∃ c, renderRow tmpl cm vpm row = .error (.keyError c) ∧ row.lookup c = none := by
  obtain ⟨c, hc, hcn⟩ := computeReplacements_absent row cm h
  exact ⟨c, by rw [renderRow, hc], hcn⟩

theorem renderParagraph_ok_inv {cm : ColumnMapping} {vpm : Text → List Nat}
    {repls : List (Text × Text)} {i : Nat} {b b' : Block}
    (h : renderParagraph cm vpm repls i b = .ok b') :
    b'.style = b.style ∧
      applySubs repls ((cm.map Prod.fst).filter fun v => (vpm v).contains i) b.text
        = .ok b'.text := by
  rw [renderParagraph] at h
  cases ha : applySubs repls ((cm.map Prod.fst).filter fun v => (vpm v).contains i) b.text with
  | error e => rw [ha] at h; exact absurd h (by simp)
  | ok t =>
    rw [ha] at h
    injection h with h
    subst h
    exact ⟨rfl, rfl⟩

theorem renderParas_ok_get (cm : ColumnMapping) (vpm : Text → List Nat)
    (repls : List (Text × Text)) :
    ∀ (bs : List Block) (k : Nat) (bs' : List Block),
      renderParas cm vpm repls k bs = .ok bs' →
      bs'.length = bs.length ∧
        ∀ (j : Nat) (b : Block), bs[j]? = some b →
          ∃ b', bs'[j]? = some b' ∧ renderParagraph cm vpm repls (k + j) b = .ok b' := by
  intro bs
  induction bs with
  | nil =>
    intro k bs' h
    rw [renderParas] at h
    injection h with h
    subst h
    exact ⟨rfl, by simp⟩
  | cons b bs ih =>
    intro k bs' h
    rw [renderParas] at h
    cases hrp : renderParagraph cm vpm repls k b with
    | error e => rw [hrp] at h; exact absurd h (by simp)
    | ok b0 =>
      rw [hrp] at h
      cases hrest : renderParas cm vpm repls (k + 1) bs with
      | error e => rw [hrest] at h; exact absurd h (by simp)
      | ok bs0 =>
        rw [hrest] at h
        injection h with h
        subst h
        obtain ⟨hlen, hget⟩ := ih (k + 1) bs0 hrest
        refine ⟨by simp [hlen], ?_⟩
        intro j bj hj
        cases j with
        | zero =>
          simp only [List.getElem?_cons_zero] at hj
          injection hj with hj
          subst hj
          exact ⟨b0, by simp, by simpa using hrp⟩
        | succ j' =>
          simp only [List.getElem?_cons_succ] at hj
          obtain ⟨b', hb', hrp'⟩ := hget j' bj hj
          refine ⟨b', by simpa using hb', ?_⟩
          have hke : k + (j' + 1) = k + 1 + j' := by omega
          rw [hke]
          exact hrp'

theorem renderParas_styles (cm : ColumnMapping) (vpm : Text → List Nat)
    (repls : List (Text × Text)) :
    ∀ (bs : List Block) (k : Nat) (bs' : List Block),
      renderParas cm vpm repls k bs = .ok bs' →
      List.Forall₂ (fun b b' : Block => b'.style = b.style) bs bs' := by
  intro bs
  induction bs with
  | nil =>
    intro k bs' h
    rw [renderParas] at h
    injection h with h
    subst h
    exact List.Forall₂.nil
  | cons b bs ih =>
    intro k bs' h
    rw [renderParas] at h
    cases hrp : renderParagraph cm vpm repls k b with
    | error e => rw [hrp] at h; exact absurd h (by simp)
    | ok b0 =>
      rw [hrp] at h
      cases hrest : renderParas cm vpm repls (k + 1) bs with
      | error e => rw [hrest] at h; exact absurd h (by simp)
      | ok bs0 =>
        rw [hrest] at h
        injection h with h
        subst h
        exact List.Forall₂.cons (renderParagraph_ok_inv hrp).1 (ih (k + 1) bs0 hrest)

theorem renderRow_ok_inv {tmpl : Template} {cm : ColumnMapping} {vpm : Text → List Nat}
    {row : Row} {d : Template} (h : renderRow tmpl cm vpm row = .ok d) :
    ∃ repls, computeReplacements row cm = .ok repls ∧
      renderParas cm vpm repls 0 tmpl.paragraphs = .ok d.paragraphs ∧ d.tables = [] := by
  rw [renderRow] at h
  cases hc : computeReplacements row cm with
  | error e => rw [hc] at h; exact absurd h (by simp)
  | ok repls =>
    rw [hc] at h
    dsimp only at h
    cases hp : renderParas cm vpm repls 0 tmpl.paragraphs with
    | error e => rw [hp] at h; exact absurd h (by simp)
    | ok paras =>
      rw [hp] at h
      injection h with h
      subst h
      exact ⟨repls, rfl, hp, rfl⟩

theorem renderParas_nil_cm (vpm : Text → List Nat) (repls : List (Text × Text)) :
    ∀ (bs : List Block) (k : Nat), renderParas [] vpm repls k bs = .ok bs := by
  intro bs
  induction bs with
  | nil => intro k; rfl
  | cons b bs ih =>
    intro k
    rw [renderParas]
    have h1 : renderParagraph [] vpm repls k b = .ok b := by
      rw [renderParagraph]
      simp only [List.map_nil, List.filter_nil]
      rfl
    rw [h1, ih (k + 1)]

theorem renderRow_empty_mapping (tmpl : Template) (vpm : Text → List Nat) (row : Row) :
    renderRow tmpl [] vpm row = .ok { paragraphs := tmpl.paragraphs, tables := [] } := by
  rw [renderRow]
  have h0 : computeReplacements row [] = .ok [] := rfl
  rw [h0]
  dsimp only
  rw [renderParas_nil_cm vpm [] tmpl.paragraphs 0]

theorem applySubs_keeps_token {w : Text} (repls : List (Text × Text)) :
    ∀ (vars : List Text) (t t' : Text),
      (∀ u ∈ vars, NoBraces u ∧ u ≠ w) → NoBraces w →
      applySubs repls vars t = .ok t' →
      tokStr w <:+: t → tokStr w <:+: t' := by
  intro vars
  induction vars with
  | nil =>
    intro t t' _ _ h hinf
    rw [applySubs] at h
    injection h with h
    exact h ▸ hinf
  | cons u vs ih =>
    intro t t' hvals hw h hinf
    rw [applySubs] at h
    cases hl : repls.lookup u with
    | none => rw [hl] at h; exact absurd h (by simp)
    | some r =>
      rw [hl] at h
      dsimp only at h
      cases hs : reSubVar u r t with
      | none => rw [hs] at h; exact absurd h (by simp)
      | some t₁ =>
        rw [hs] at h
        have hex : ∃ e, t₁ = substToken u e t := by
          rw [reSubVar] at hs
          cases hp : parseTemplate (tokStr u) r with
          | none => rw [hp] at hs; exact absurd hs (by simp)
          | some e =>
            rw [hp] at hs
            injection hs with hs
            exact ⟨e, hs.symm⟩
        obtain ⟨e, rfl⟩ := hex
        obtain ⟨hnb, hneq⟩ := hvals u (List.mem_cons_self u vs)
        exact ih _ t' (fun x hx => hvals x (List.mem_cons_of_mem u hx)) hw h
          (subst_keeps_other_token e hnb hw hneq t hinf)

theorem generate_documents_frame :
    ∀ (rows : List Row) (st : Template × (Text → List Nat)) (cm : ColumnMapping)
      (fcol odir : Text) (outs : List (Text × Template))
      (st' : Template × (Text → List Nat)),
      generate_documents rows st cm fcol odir = .ok (outs, st') → st' = st := by
  intro rows
  induction rows with
  | nil =>
    intro st cm f o outs st' h
    rw [generate_documents] at h
    injection h with h
    exact (congrArg Prod.snd h).symm
  | cons row rest ih =>
    intro st cm f o outs st' h
    rw [generate_documents] at h
    cases hr : renderRow st.1 cm st.2 row with
    | error e => rw [hr] at h; exact absurd h (by simp)
    | ok doc =>
      rw [hr] at h
      cases hl : row.lookup f with
      | none => rw [hl] at h; exact absurd h (by simp)
      | some val =>
        rw [hl] at h
        cases hg : generate_documents rest st cm f o with
        | error e => rw [hg] at h; exact absurd h (by simp)
        | ok p =>
          obtain ⟨outs0, st0⟩ := p
          rw [hg] at h
          injection h with h
          exact ((congrArg Prod.snd h).symm).trans (ih st cm f o outs0 st0 hg)

end DocGen

namespace DocGen

theorem cellTexts_mem {doc : Template} {txt : Text} :
    txt ∈ cellTexts doc ↔
      ∃ tbl ∈ doc.tables, ∃ r ∈ tbl, ∃ cell ∈ r, ∃ b ∈ cell, b.text = txt := by
  simp [cellTexts]

theorem filter_map_eq_filterMap (f : Char → Char) (p : Char → Bool) :
    ∀ (s : Text), (s.map f).filter p
      = s.filterMap fun c => if p (f c) = true then some (f c) else none := by
  intro s
  induction s with
  | nil => rfl
  | cons c cs ih =>
    rw [List.map_cons, List.filter_cons, List.filterMap_cons]
    by_cases h : p (f c) = true
    · rw [if_pos h, if_pos h, ih]
    · rw [if_neg h, if_neg h, ih]

theorem filterMap_ext {f g : Char → Option Char} (h : ∀ c, f c = g c) :
    ∀ (s : Text), s.filterMap f = s.filterMap g := by
  intro s
  induction s with
  | nil => rfl
  | cons c cs ih => rw [List.filterMap_cons, List.filterMap_cons, h c, ih]

theorem filenameCharSpec_pointwise (c : Char) :
    (if keepFilenameChar (if c = ' ' then '_' else c) = true
      then some (if c = ' ' then '_' else c) else none) = filenameCharSpec c := by
  by_cases hsp : c = ' '
  · subst hsp; rfl
  · rw [if_neg hsp, filenameCharSpec, if_neg hsp]

/-- C5: for every template, every top-level block index `i` and every
variable name `v`, the Position Index list built by the Template Indexer
for `v` contains `i` if and only if block `i`'s raw text contains the
literal token `{v}`. -/
theorem c5_position_index (doc : Template) (v : Text) (i : Nat) (hv : ValidName v) :
    i ∈ (extract_variables_from_template doc).2 v ↔
      ∃ b, doc.paragraphs[i]? = some b ∧ tokStr v <:+: b.text := by
  show i ∈ varParagraphs doc v ↔ _
  rw [varParagraphs_mem]
  constructor
  · rintro ⟨b, hb, hv'⟩
    exact ⟨b, hb, (findTokens_mem_iff.mp hv').2⟩
  · rintro ⟨b, hb, hinf⟩
    exact ⟨b, hb, findTokens_mem_iff.mpr ⟨hv, hinf⟩⟩

theorem c5_position_index_witness :
    0 ∈ (extract_variables_from_template tmplScenario).2 (("name").data) ↔
      ∃ b, tmplScenario.paragraphs[0]? = some b ∧ tokStr (("name").data) <:+: b.text :=
  c5_position_index tmplScenario (("name").data) 0 (by decide)

/-- C6: the set of variable names returned by the Template Indexer equals
the set of all `{name}` token names appearing in top-level blocks or in
table cells. -/
theorem c6_variable_set (doc : Template) (v : Text) :
    v ∈ (extract_variables_from_template doc).1 ↔
      ValidName v ∧
        ((∃ b ∈ doc.paragraphs, tokStr v <:+: b.text) ∨
          ∃ tbl ∈ doc.tables, ∃ r ∈ tbl, ∃ cell ∈ r, ∃ b ∈ cell, tokStr v <:+: b.text) := by
  show v ∈ templateVariables doc ↔ _
  rw [templateVariables, List.mem_dedup, List.mem_flatMap]
  constructor
  · rintro ⟨txt, htxt, hvtok⟩
    obtain ⟨hval, hinf⟩ := findTokens_mem_iff.mp hvtok
    refine ⟨hval, ?_⟩
    rcases List.mem_append.mp htxt with h | h
    · obtain ⟨b, hb, rfl⟩ := List.mem_map.mp h
      exact Or.inl ⟨b, hb, hinf⟩
    · obtain ⟨tbl, ht, rr, hr, cell, hcell, b, hb, rfl⟩ := cellTexts_mem.mp h
      exact Or.inr ⟨tbl, ht, rr, hr, cell, hcell, b, hb, hinf⟩
  · rintro ⟨hval, h | h⟩
    · obtain ⟨b, hb, hinf⟩ := h
      exact ⟨b.text, List.mem_append.mpr (Or.inl (List.mem_map.mpr ⟨b, hb, rfl⟩)),
        findTokens_mem_iff.mpr ⟨hval, hinf⟩⟩
    · obtain ⟨tbl, ht, rr, hr, cell, hcell, b, hb, hinf⟩ := h
      exact ⟨b.text,
        List.mem_append.mpr
          (Or.inr (cellTexts_mem.mpr ⟨tbl, ht, rr, hr, cell, hcell, b, hb, rfl⟩)),
        findTokens_mem_iff.mpr ⟨hval, hinf⟩⟩

/-- C8: the Filename Deriver first replaces every space with an underscore
and then removes every character outside word chars, hyphen, underscore and
period; equivalently it is the single per-character pass
`filenameCharSpec`; in particular `"John Doe/2024"` derives
`"John_Doe2024"`. -/
theorem c8_filename_derivation :
    (∀ s : Text, derive_filename s = (pyReplaceChar ' ' '_' s).filter keepFilenameChar) ∧
      (∀ s : Text, derive_filename s = s.filterMap filenameCharSpec) ∧
      derive_filename (("John Doe/2024").data) = ("John_Doe2024").data := by
  refine ⟨fun s => rfl, ?_, by decide⟩
  intro s
  show (pyReplaceChar ' ' '_' s).filter keepFilenameChar = _
  rw [pyReplaceChar, filter_map_eq_filterMap]
  exact filterMap_ext filenameCharSpec_pointwise s

/-- C10: the derived base name never contains a path separator (slash or
backslash), and joining it (with the document extension) onto the output
directory always keeps the output directory as a prefix of the final path,
so every document lands inside the caller-specified directory. -/
theorem c10_no_path_separators (s : Text) :
    '/' ∉ derive_filename s ∧ '\\' ∉ derive_filename s ∧
      ∀ dir : Text, dir <+: joinPath dir (derive_filename s ++ (".docx").data) := by
  have hmem : ∀ c ∈ derive_filename s, keepFilenameChar c = true := by
    intro c hc
    exact (List.mem_filter.mp hc).2
  refine ⟨fun h => absurd (hmem '/' h) (by decide),
    fun h => absurd (hmem '\\' h) (by decide), ?_⟩
  intro dir
  have hhead : ¬ (derive_filename s ++ (".docx").data).head? = some '/' := by
    cases hd : derive_filename s with
    | nil =>
      intro hcon
      rw [List.nil_append] at hcon
      exact absurd hcon (by decide)
    | cons c cs =>
      intro hcon
      rw [List.cons_append, List.head?_cons] at hcon
      injection hcon with hc
      have hcmem : c ∈ derive_filename s := by
        rw [hd]; exact List.mem_cons_self _ _
      have := hmem c hcmem
      rw [hc] at this
      exact absurd this (by decide)
  rw [joinPath, if_neg hhead]
  by_cases ha : dir = [] ∨ dir.getLast? = some '/'
  · rw [if_pos ha]; exact List.prefix_append dir _
  · rw [if_neg ha]; exact List.prefix_append dir _

end DocGen

namespace DocGen

/-- C1 counterexample: with mapping `x → col` and a row that has no column
`col`, the Row Renderer raises a KeyError (computed for every mapped column
up front) instead of substituting the empty string. -/
theorem c1_counterexample :
    renderRow tmplHiX cmXcol (varParagraphs tmplHiX) [] =
      .error (RenderError.keyError (("col").data)) := by rfl

/-- C1 amended: an ABSENT mapped column makes the renderer fail with a
KeyError naming an absent column (no document is produced); only a PRESENT
column with an EMPTY value substitutes the empty string for the token
without error (splitting on the token and rejoining with nothing). -/
theorem c1_empty_and_absent :
    (∀ (tmpl : Template) (cm : ColumnMapping) (vpm : Text → List Nat) (row : Row),
        (∃ p ∈ cm, row.lookup p.2 = none) →
        ∃ c, renderRow tmpl cm vpm row = .error (RenderError.keyError c) ∧
          row.lookup c = none) ∧
      ∀ (v t : Text), reSubVar v [] t = some (joinWith [] (splitOnTok v t)) ∧
        joinWith (tokStr v) (splitOnTok v t) = t := by
  constructor
  · exact renderRow_absent_column
  · intro v t
    refine ⟨?_, splitOnTok_reconstruct v t⟩
    rw [reSubVar_no_backslash (by simp) t, substToken_eq_joinWith]

theorem c1_witness :
    (∃ c, renderRow tmplHiX cmXcol (varParagraphs tmplHiX) [] =
        .error (RenderError.keyError c) ∧ ([] : Row).lookup c = none) ∧
      reSubVar (("x").data) [] (("Hi {x}").data) =
        some (joinWith [] (splitOnTok (("x").data) (("Hi {x}").data))) :=
  ⟨c1_empty_and_absent.1 tmplHiX cmXcol (varParagraphs tmplHiX) []
      ⟨((("x").data), (("col").data)), by decide, rfl⟩,
    (c1_empty_and_absent.2 (("x").data) (("Hi {x}").data)).1⟩

/-- C2 counterexample: for the row value backslash-t the renderer inserts a
TAB character (Python re-template expansion of the replacement string), not
the value's display text, so substitution is NOT the row value for
arbitrary row values. -/
theorem c2_counterexample :
    renderRow tmplHiX cmXcol (varParagraphs tmplHiX) rowBackslash =
        .ok { paragraphs := [{ style := "Normal", text := ("Hi \t").data }],
              tables := [] } ∧
      ("Hi \t").data ≠ ("Hi ").data ++ ("\\t").data := ⟨by rfl, by decide⟩

/-- C2 amended: for row values without a backslash, substitution replaces
exactly the literal occurrences of the token by the value — the text splits
into token-free segments that are rejoined with the value, and rejoining
them with the token itself reconstructs the original text; block styles are
always copied unchanged. -/
theorem c2_substitution :
    (∀ (v r t : Text), '\\' ∉ r →
        reSubVar v r t = some (joinWith r (splitOnTok v t)) ∧
        joinWith (tokStr v) (splitOnTok v t) = t ∧
        ∀ s ∈ splitOnTok v t, ¬ tokStr v <:+: s) ∧
      ∀ (tmpl : Template) (cm : ColumnMapping) (vpm : Text → List Nat) (row : Row)
        (d : Template), renderRow tmpl cm vpm row = .ok d →
        List.Forall₂ (fun b b' : Block => b'.style = b.style)
          tmpl.paragraphs d.paragraphs := by
  constructor
  · intro v r t hr
    exact ⟨by rw [reSubVar_no_backslash hr t, substToken_eq_joinWith],
      splitOnTok_reconstruct v t, fun s hs => splitOnTok_no_token v t s hs⟩
  · intro tmpl cm vpm row d h
    obtain ⟨repls, -, hps, -⟩ := renderRow_ok_inv h
    exact renderParas_styles cm vpm repls tmpl.paragraphs 0 d.paragraphs hps

theorem c2_witness :
    reSubVar (("x").data) (("VAL").data) (("a{x}b{x}").data) =
        some (joinWith (("VAL").data) (splitOnTok (("x").data) (("a{x}b{x}").data))) ∧
      List.Forall₂ (fun b b' : Block => b'.style = b.style) tmplHiX.paragraphs
        [{ style := "Normal", text := ("Hi val").data }] :=
  ⟨(c2_substitution.1 (("x").data) (("VAL").data) (("a{x}b{x}").data) (by decide)).1,
    c2_substitution.2 tmplHiX cmXcol (varParagraphs tmplHiX) rowVal
      { paragraphs := [{ style := "Normal", text := ("Hi val").data }], tables := [] }
      (by rfl)⟩

/-- C3 counterexample: for a template containing a tabular region, an empty
mapping reproduces the paragraphs but the generated document has NO tables,
so it is not identical to the template. -/
theorem c3_counterexample :
    renderRow tmplWithTable [] (varParagraphs tmplWithTable) [] =
        .ok { paragraphs := tmplWithTable.paragraphs, tables := [] } ∧
      ({ paragraphs := tmplWithTable.paragraphs, tables := [] } : Template)
        ≠ tmplWithTable := ⟨by rfl, by decide⟩

/-- C3 amended: rendering with an empty Column Mapping copies every
top-level block (text and style) unchanged, but the output document carries
no tabular regions: the template's tables are not reproduced. -/
theorem c3_empty_mapping (tmpl : Template) (vpm : Text → List Nat) (row : Row) :
    renderRow tmpl [] vpm row = .ok { paragraphs := tmpl.paragraphs, tables := [] } :=
  renderRow_empty_mapping tmpl vpm row

/-- C4 counterexample: a template whose only token sits in a table cell
renders to a document with no tables at all and no occurrence of the token
anywhere — table content is absent from the output, not left literal. -/
theorem c4_counterexample :
    renderRow tmplWithTable [] (varParagraphs tmplWithTable) [] =
        .ok { paragraphs := tmplWithTable.paragraphs, tables := [] } ∧
      tokStr (("v").data) <:+: (("{v} in cell").data) ∧
      tmplWithTable.tables ≠ [] ∧
      (∀ b ∈ ({ paragraphs := tmplWithTable.paragraphs, tables := [] }
          : Template).paragraphs, ¬ tokStr (("v").data) <:+: b.text) := by
  exact ⟨by rfl, by decide, by decide, by decide⟩

/-- C4 amended: every successfully rendered document has an empty list of
tabular regions — table content (placeholders included) is never copied
into the output, let alone substituted. -/
theorem c4_tables_dropped (tmpl : Template) (cm : ColumnMapping)
    (vpm : Text → List Nat) (row : Row) (d : Template)
    (h : renderRow tmpl cm vpm row = .ok d) : d.tables = [] := by
  obtain ⟨-, -, -, htab⟩ := renderRow_ok_inv h
  exact htab

theorem c4_witness :
    Template.tables { paragraphs := tmplWithTable.paragraphs, tables := [] } = [] :=
  c4_tables_dropped tmplWithTable [] (varParagraphs tmplWithTable) []
    { paragraphs := tmplWithTable.paragraphs, tables := [] } (by rfl)

/-- C7: a `{w}` token whose variable `w` is not a key of the Column Mapping
survives rendering: wherever it occurred in a template block, it still
occurs in the corresponding rendered block (no implicit blanking). -/
theorem c7_unmapped_left_literal (tmpl : Template) (cm : ColumnMapping) (row : Row)
    (d : Template) (w : Text)
    (hrender : renderRow tmpl cm (varParagraphs tmpl) row = .ok d)
    (hw : ValidName w) (hunmapped : ∀ p ∈ cm, p.1 ≠ w) :
    ∀ (i : Nat) (b b' : Block), tmpl.paragraphs[i]? = some b →
      d.paragraphs[i]? = some b' → tokStr w <:+: b.text → tokStr w <:+: b'.text := by
  intro i b b' hb hb' hinf
  obtain ⟨repls, -, hps, -⟩ := renderRow_ok_inv hrender
  obtain ⟨-, hget⟩ := renderParas_ok_get cm (varParagraphs tmpl) repls tmpl.paragraphs 0
    d.paragraphs hps
  obtain ⟨b'', hb'', hpara⟩ := hget i b hb
  have hbb : b'' = b' := by
    rw [hb''] at hb'
    injection hb'
  obtain ⟨-, happ⟩ := renderParagraph_ok_inv hpara
  rw [← hbb]
  refine applySubs_keeps_token repls _ b.text b''.text ?_ hw.2 happ hinf
  intro u hu
  obtain ⟨hu1, hu2⟩ := List.mem_filter.mp hu
  have hmemvp : (0 + i) ∈ varParagraphs tmpl u := contains_iff_mem.mp hu2
  have hvalid := varParagraphs_valid hmemvp
  obtain ⟨p, hp, hp1⟩ := List.mem_map.mp hu1
  exact ⟨hvalid.2, hp1 ▸ hunmapped p hp⟩

theorem c7_witness :
    tokStr (("amount").data) <:+: (("Your balance is {amount}.").data) :=
  c7_unmapped_left_literal tmplScenario cmScenarioB rowScenario
    { paragraphs := [{ style := "Normal", text := ("Dear Ana,").data },
                     { style := "Normal", text := ("Your balance is {amount}.").data }],
      tables := [] }
    (("amount").data) (by rfl) (by decide) (by decide) 1
    { style := "Normal", text := ("Your balance is {amount}.").data }
    { style := "Normal", text := ("Your balance is {amount}.").data }
    (by rfl) (by rfl) (by decide)

/-- C9: the batch driver threads the shared Template and Position Index
through every row unchanged: after rendering any number of rows the state
equals the state before the batch — no Row Renderer invocation mutates it. -/
theorem c9_no_mutation (rows : List Row) (st : Template × (Text → List Nat))
    (cm : ColumnMapping) (fcol odir : Text) (outs : List (Text × Template))
    (st' : Template × (Text → List Nat))
    (h : generate_documents rows st cm fcol odir = .ok (outs, st')) : st' = st :=
  generate_documents_frame rows st cm fcol odir outs st' h

theorem c9_witness :
    ((tmplHiX, varParagraphs tmplHiX) : Template × (Text → List Nat)) =
      (tmplHiX, varParagraphs tmplHiX) :=
  c9_no_mutation [rowVal] (tmplHiX, varParagraphs tmplHiX) cmXcol (("col").data)
    (("out").data)
    [(("out/val.docx").data,
      { paragraphs := [{ style := "Normal", text := ("Hi val").data }], tables := [] })]
    (tmplHiX, varParagraphs tmplHiX) (by rfl)

end DocGen
